import Mathlib

/-!
Verification of the wordcount example (`examples/wordcount/wordcount.py`)
and of the object-store contract described by the accompanying design
document.

The Python code is embedded shallowly:
* Python `dict`s with string keys and integer values become insertion-ordered
  association lists (`Dict`); `defaultdict(int)` access-and-increment becomes
  `Dict.incr`, which updates an existing binding in place or appends a new one.
* Python `str.split()` (split on runs of whitespace, dropping empty chunks)
  becomes `pySplit`.
* Dynamically-typed Python return values become `PyValue`; a Python
  `return a, b` statement returns a `PyValue.tuple`.
* The `@op.distributed(inputs, outputs)` decorator arguments become
  `RemoteSpec` values, with Python's `None` placeholder embedded as `none`.
-/

/-- The Python types appearing in the `@op.distributed` decorator argument
lists of the example: `str`, `int` and `dict`. -/
inductive PyType
  | str
  | int
  | dict
deriving DecidableEq

/-- A Python `dict` mapping strings to integers, as an insertion-ordered
association list. A genuine Python dict additionally has pairwise distinct
keys; theorems take that as a hypothesis where it matters. -/
abbrev Dict := List (String × Int)

/-- A dynamically typed Python value, as far as the example needs:
strings, integers, dicts and tuples. -/
inductive PyValue
  | str : String → PyValue
  | int : Int → PyValue
  | dict : Dict → PyValue
  | tuple : List PyValue → PyValue

/-- Does a runtime value have the given declared type? -/
def matchesType : PyType → PyValue → Bool
  | .str, .str _ => true
  | .int, .int _ => true
  | .dict, .dict _ => true
  | _, _ => false

/-- The two type-signature lists passed to `@op.distributed`: the input
signature may contain the placeholder `None` (embedded as `none`), the
output signature in the example never does. -/
structure RemoteSpec where
  inputs : List (Option PyType)
  outputs : List PyType
deriving DecidableEq

/-- First binding of key `k` in the association list, i.e. Python `d.get(k)` /
`d[k]` for dicts (for a genuine dict the key occurs at most once). -/
def Dict.find : Dict → String → Option Int
  | [], _ => none
  | (k0, v0) :: rest, k => if k0 = k then some v0 else Dict.find rest k

/-- Python `d[k] += v` on a `defaultdict(int)`: update the binding of `k` in
place if present, otherwise append a new binding at the end (Python dicts are
insertion-ordered). When `k` is absent the missing-key default is `0`, so the
new binding is `k ↦ v`. -/
def Dict.incr : Dict → String → Int → Dict
  | [], k, v => [(k, v)]
  | (k0, v0) :: rest, k, v =>
    if k0 = k then (k0, v0 + v) :: rest else (k0, v0) :: Dict.incr rest k v

/-- `collections.Counter(ws)` for a list of words: fold `Dict.incr · · 1`
over the list, starting from the empty dict. -/
def counterOf (ws : List String) : Dict :=
  ws.foldl (fun c w => Dict.incr c w 1) []

/-- The whitespace characters recognised by Python's `str.split()` (ASCII
fragment, which covers the example's inputs). -/
def isPySpace (c : Char) : Bool :=
  c = ' ' || c = '\t' || c = '\n' || c = '\r' || c = '\x0b' || c = '\x0c'

/-- Worker for `pySplit`: `cur` holds the characters of the current chunk in
reverse. Whitespace ends the current chunk (dropped when empty); a final
non-empty chunk is emitted at the end of the input. -/
def splitAux : List Char → List Char → List String
  | [], [] => []
  | [], cur => [String.mk cur.reverse]
  | c :: rest, cur =>
    if isPySpace c then
      match cur with
      | [] => splitAux rest []
      | _ => String.mk cur.reverse :: splitAux rest []
    else splitAux rest (c :: cur)

/-- Python `s.split()` with no arguments: split on runs of whitespace and
drop empty chunks. -/
def pySplit (s : String) : List String :=
  splitAux s.toList []

/-- Body of `load_textfile(url)`. The file read `open(url, "r").read()` is
embedded by taking the file's contents as the argument; the body then
executes `return result, len(result)`, a Python tuple of two values. -/
def load_textfile (contents : String) : PyValue :=
  .tuple [.str contents, .int (contents.length : Int)]

/-- `@op.distributed([str], [str, int])` on `load_textfile`. -/
def load_textfile_spec : RemoteSpec :=
  { inputs := [some .str], outputs := [.str, .int] }

/-- Body of `count_words(data)`: `Counter(data.split())`. -/
def count_words (data : String) : Dict :=
  counterOf (pySplit data)

/-- The value `count_words` returns: a single dict (Python
`return Counter(word_list)` returns one value, not a tuple). -/
def count_words_ret (data : String) : PyValue :=
  .dict (count_words data)

/-- `@op.distributed([str], [dict])` on `count_words`. -/
def count_words_spec : RemoteSpec :=
  { inputs := [some .str], outputs := [.dict] }

/-- Body of `count_words_fast(data)`: a `defaultdict(int)` incremented once
per character of `data` (iterating a Python string yields its one-character
substrings), then copied with `dict(counter)`. -/
def count_words_fast (data : String) : Dict :=
  data.toList.foldl (fun c ch => Dict.incr c (String.singleton ch) 1) []

/-- `@op.distributed([str], [dict])` on `count_words_fast`. -/
def count_words_fast_spec : RemoteSpec :=
  { inputs := [some .str], outputs := [.dict] }

/-- Body of `sum_by_key(*dicts)`: a `defaultdict(int)` accumulating
`result[key] += d.get(key)` for every key of every argument dict, in
argument order and key-iteration order. -/
def sum_by_key (dicts : List Dict) : Dict :=
  dicts.foldl (fun r d => d.foldl (fun r2 kv => Dict.incr r2 kv.1 kv.2) r) []

/-- `@op.distributed([dict, None], [dict])` on `sum_by_key`. -/
def sum_by_key_sig : RemoteSpec :=
  { inputs := [some .dict, none], outputs := [.dict] }

/-- Body of `sum_by_key_return_len(*dicts)`: same accumulation as
`sum_by_key`, but returns `len(result)`, the number of keys. -/
def sum_by_key_return_len (dicts : List Dict) : Int :=
  ((dicts.foldl (fun r d => d.foldl (fun r2 kv => Dict.incr r2 kv.1 kv.2) r) []).length : Int)

/-- `@op.distributed([dict, None], [int])` on `sum_by_key_return_len`. -/
def sum_by_key_return_len_sig : RemoteSpec :=
  { inputs := [some .dict, none], outputs := [.int] }

/-- Body of `map_reduce(*data)`: a `Counter` updated with `s.split()` for
each argument string `s`. -/
def map_reduce (data : List String) : Dict :=
  data.foldl (fun c s => (pySplit s).foldl (fun c2 w => Dict.incr c2 w 1) c) []

/-- The value `map_reduce` returns: a single dict. -/
def map_reduce_ret (data : List String) : PyValue :=
  .dict (map_reduce data)

/-- `@op.distributed([str, None], [dict])` on `map_reduce`. -/
def map_reduce_sig : RemoteSpec :=
  { inputs := [some .str, none], outputs := [.dict] }

/-- `@op.distributed([str, None], [int])` on `map_reduce2`. -/
def map_reduce2_sig : RemoteSpec :=
  { inputs := [some .str, none], outputs := [.int] }

/-- Body of `map_reduce2(*data)`: builds the same counter as `map_reduce`
but then executes `return 1`, discarding it. -/
def map_reduce2 (data : List String) : Int :=
  let _c := data.foldl (fun c2 s => (pySplit s).foldl (fun c3 w => Dict.incr c3 w 1) c2) ([] : Dict)
  1

/-!
## Object store

The runtime's object store is not part of the example source; the design
document specifies its single-assignment `put`/`get` contract, which is
modelled here.
-/

/-- The errors of the object-store contract that matter here. -/
inductive StoreError
  | DuplicateWriteError
deriving DecidableEq

/-- Modelled from the spec: the Object Store (absent from the repository
source; only the design document describes it) maps opaque object
identifiers to at most one value each. -/
abbrev ObjectStore := List (Nat × PyValue)

/-- Modelled from the spec: the non-blocking lookup underlying `get` /
`exists` — the value stored for an id, if any. -/
def ObjectStore.lookupId : ObjectStore → Nat → Option PyValue
  | [], _ => none
  | (i0, v0) :: rest, i => if i0 = i then some v0 else ObjectStore.lookupId rest i

/-- Modelled from the spec: `put(objectId, value)` fails with
`DuplicateWriteError` if the id already has a value (single assignment),
and otherwise stores the value. -/
def ObjectStore.put (st : ObjectStore) (i : Nat) (v : PyValue) :
    Except StoreError ObjectStore :=
  match st.lookupId i with
  | some _ => .error .DuplicateWriteError
  | none => .ok ((i, v) :: st)

/-!
## Theorems: concrete scenarios and signatures
-/

/-- C2: `count_words` applied to the literal string "a a b" returns the
mapping {"a": 2, "b": 1}. -/
theorem count_words_example : count_words "a a b" = [("a", 2), ("b", 1)] := by
  decide

/-- C3: `sum_by_key` applied to the three dicts {"x": 1}, {"x": 2}, {"y": 5}
(in that order) returns the mapping {"x": 3, "y": 5}. -/
theorem sum_by_key_example :
    sum_by_key [[("x", 1)], [("x", 2)], [("y", 5)]] = [("x", 3), ("y", 5)] := by
  decide

/-- C9: `map_reduce2` returns the constant integer 1 on every input,
independent of the word counter it internally computes. -/
theorem map_reduce2_constant (data : List String) : map_reduce2 data = 1 := rfl

/-- C4: `load_textfile` declares two outputs, `[str, int]`, and for every
string `s` that is the contents of the file it reads it returns a sequence
of exactly two values — as many as declared — whose first element is `s`
and whose second element is the length of `s`. -/
theorem load_textfile_correct (s : String) :
    load_textfile_spec.outputs = [PyType.str, PyType.int]
    ∧ ∃ vs : List PyValue,
        load_textfile s = PyValue.tuple vs
        ∧ vs.length = load_textfile_spec.outputs.length
        ∧ vs.length = 2
        ∧ vs[0]? = some (PyValue.str s)
        ∧ vs[1]? = some (PyValue.int (s.length : Int)) := by
  exact ⟨rfl, [.str s, .int (s.length : Int)], rfl, rfl, rfl, rfl, rfl⟩

/-- C5: each variadic function of the example (`sum_by_key`,
`sum_by_key_return_len`, `map_reduce`, `map_reduce2`) declares its input
signature as exactly one concrete type followed by the placeholder `None`
in the last position. -/
theorem variadic_signatures :
    (∃ t, sum_by_key_sig.inputs = [some t, none])
    ∧ (∃ t, sum_by_key_return_len_sig.inputs = [some t, none])
    ∧ (∃ t, map_reduce_sig.inputs = [some t, none])
    ∧ (∃ t, map_reduce2_sig.inputs = [some t, none])
    ∧ sum_by_key_sig.inputs = [some PyType.dict, none]
    ∧ sum_by_key_return_len_sig.inputs = [some PyType.dict, none]
    ∧ map_reduce_sig.inputs = [some PyType.str, none]
    ∧ map_reduce2_sig.inputs = [some PyType.str, none] :=
  ⟨⟨.dict, rfl⟩, ⟨.dict, rfl⟩, ⟨.str, rfl⟩, ⟨.str, rfl⟩, rfl, rfl, rfl, rfl⟩

/-- C6: the single-output functions named by the claim (`count_words` and
`map_reduce`, each declaring output `[dict]`) return, on every input, a
single value of the declared type directly — a dict, never a tuple. -/
theorem single_output_direct :
    count_words_spec.outputs = [PyType.dict]
    ∧ map_reduce_sig.outputs = [PyType.dict]
    ∧ (∀ s : String,
        matchesType PyType.dict (count_words_ret s) = true
        ∧ (∃ d, count_words_ret s = PyValue.dict d)
        ∧ ∀ vs, count_words_ret s ≠ PyValue.tuple vs)
    ∧ (∀ data : List String,
        matchesType PyType.dict (map_reduce_ret data) = true
        ∧ (∃ d, map_reduce_ret data = PyValue.dict d)
        ∧ ∀ vs, map_reduce_ret data ≠ PyValue.tuple vs) := by
  refine ⟨rfl, rfl, fun s => ⟨rfl, ⟨count_words s, rfl⟩, fun vs h => ?_⟩,
    fun data => ⟨rfl, ⟨map_reduce data, rfl⟩, fun vs h => ?_⟩⟩
  · exact PyValue.noConfusion h
  · exact PyValue.noConfusion h

/-- C7: the object store's `put` succeeds at most once per id — once a
value is stored for an id, any later `put` on that id fails with
`DuplicateWriteError` (returning no new store, hence leaving the stored
value unchanged), and the stored value is still the first one written. -/
theorem objectstore_put_at_most_once (st st' : ObjectStore) (i : Nat)
    (v w : PyValue) (h : st.put i v = .ok st') :
    st'.put i w = .error .DuplicateWriteError ∧ st'.lookupId i = some v := by
  unfold ObjectStore.put at h ⊢
  cases hl : st.lookupId i with
  | some u => rw [hl] at h; exact absurd h (by simp)
  | none =>
    rw [hl] at h
    have hst : st' = (i, v) :: st := by
      have := h
      simp only [Except.ok.injEq] at this
      exact this.symm
    subst hst
    constructor
    · simp [ObjectStore.lookupId]
    · simp [ObjectStore.lookupId]

/-- Witness for C7 at a concrete store: after `put` stores the integer 0
at id 0 in the empty store, a second `put` at id 0 fails with
`DuplicateWriteError` and id 0 still holds the integer 0. -/
theorem objectstore_put_at_most_once_witness :
    ObjectStore.put [(0, PyValue.int 0)] 0 (PyValue.int 1)
        = .error .DuplicateWriteError
    ∧ ObjectStore.lookupId [(0, PyValue.int 0)] 0 = some (PyValue.int 0) :=
  objectstore_put_at_most_once [] [(0, PyValue.int 0)] 0 (PyValue.int 0)
    (PyValue.int 1) rfl

/-!
## `sum_by_key`: general correctness
-/

/-- Lookup after a `Dict.incr`: the incremented key gains `v` on top of its
previous value (default 0), every other key is untouched. -/
theorem Dict.find_incr (r : Dict) (k k2 : String) (v : Int) :
    (Dict.incr r k v).find k2 =
      if k2 = k then some ((Dict.find r k).getD 0 + v) else Dict.find r k2 := by
  induction r with
  | nil =>
    simp only [Dict.incr, Dict.find]
    by_cases h : k2 = k
    · subst h; simp
    · simp [h, Ne.symm h]
  | cons hd rest ih =>
    obtain ⟨k0, v0⟩ := hd
    simp only [Dict.incr]
    by_cases hk : k0 = k
    · subst hk
      simp only [if_pos rfl, Dict.find]
      by_cases h2 : k0 = k2
      · subst h2; simp
      · simp [h2, Ne.symm h2]
    · simp only [if_neg hk, Dict.find, ih]
      by_cases h2 : k0 = k2
      · subst h2
        simp [hk]
      · simp [h2]

/-- A key is bound in a dict iff lookup does not return `none`. -/
theorem Dict.find_eq_none_iff (d : Dict) (k : String) :
    Dict.find d k = none ↔ k ∉ d.map Prod.fst := by
  induction d with
  | nil => simp [Dict.find]
  | cons hd rest ih =>
    obtain ⟨k0, v0⟩ := hd
    by_cases h : k0 = k
    · subst h; simp [Dict.find]
    · simp [Dict.find, h, ih, Ne.symm h]

/-- Folding one dict `d` (with distinct keys) into the accumulator `r` via
`Dict.incr` — the inner loop of `sum_by_key` — changes lookups exactly at
the keys of `d`, adding the value bound there. -/
theorem Dict.fold_incr_find (d : Dict) (hd : (d.map Prod.fst).Nodup)
    (r : Dict) (k : String) :
    (d.foldl (fun r2 kv => Dict.incr r2 kv.1 kv.2) r).find k =
      match Dict.find d k with
      | some v => some ((Dict.find r k).getD 0 + v)
      | none => Dict.find r k := by
  induction d generalizing r with
  | nil => simp [Dict.find]
  | cons hd0 rest ih =>
    obtain ⟨k0, v0⟩ := hd0
    simp only [List.map_cons, List.nodup_cons] at hd
    simp only [List.foldl_cons]
    rw [ih hd.2]
    by_cases h : k0 = k
    · subst h
      have hrest : Dict.find rest k0 = none :=
        (Dict.find_eq_none_iff rest k0).mpr hd.1
      simp [hrest, Dict.find, Dict.find_incr]
    · cases hrk : Dict.find rest k with
      | none => simp [Dict.find, h, Dict.find_incr, Ne.symm h, hrk]
      | some v => simp [Dict.find, h, Dict.find_incr, Ne.symm h, hrk]

/-- The outer loop of `sum_by_key` over the argument dicts, relative to an
arbitrary accumulator `r`. -/
theorem sum_by_key_fold_find (ds : List Dict)
    (h : ∀ d ∈ ds, (d.map Prod.fst).Nodup) (r : Dict) (k : String) :
    (ds.foldl (fun r2 d => d.foldl (fun r3 kv => Dict.incr r3 kv.1 kv.2) r2) r).find k =
      if ds.filterMap (fun d => Dict.find d k) = [] then Dict.find r k
      else some ((Dict.find r k).getD 0
        + (ds.filterMap (fun d => Dict.find d k)).sum) := by
  induction ds generalizing r with
  | nil => simp
  | cons d rest ih =>
    simp only [List.foldl_cons]
    have hd := h d (List.mem_cons_self d rest)
    have hrest : ∀ d2 ∈ rest, (d2.map Prod.fst).Nodup :=
      fun d2 hm => h d2 (List.mem_cons_of_mem d hm)
    rw [ih hrest, Dict.fold_incr_find d hd]
    cases hdk : Dict.find d k with
    | none => simp [List.filterMap_cons, hdk]
    | some v =>
      simp only [List.filterMap_cons, hdk]
      by_cases hre : rest.filterMap (fun d2 => Dict.find d2 k) = []
      · simp [hre]
      · simp [hre, List.sum_cons, add_assoc]

/-- C1: for every finite sequence of dicts (each with the pairwise-distinct
keys of a genuine Python dict), `sum_by_key` returns a mapping whose key set
is the union of the inputs' key sets and which binds each key to the sum of
the values bound to that key in every input dict that contains it. -/
theorem sum_by_key_correct (ds : List Dict)
    (h : ∀ d ∈ ds, (d.map Prod.fst).Nodup) (k : String) :
    (k ∈ (sum_by_key ds).map Prod.fst ↔ ∃ d ∈ ds, k ∈ d.map Prod.fst)
    ∧ (sum_by_key ds).find k =
        (if ds.filterMap (fun d => Dict.find d k) = [] then none
         else some (ds.filterMap (fun d => Dict.find d k)).sum) := by
  have hfind : (sum_by_key ds).find k =
      (if ds.filterMap (fun d => Dict.find d k) = [] then none
       else some (ds.filterMap (fun d => Dict.find d k)).sum) := by
    unfold sum_by_key
    rw [sum_by_key_fold_find ds h [] k]
    by_cases hfm : ds.filterMap (fun d => Dict.find d k) = [] <;>
      simp [hfm, Dict.find]
  refine ⟨?_, hfind⟩
  have h1 : k ∈ (sum_by_key ds).map Prod.fst ↔
      ¬ (Dict.find (sum_by_key ds) k = none) := by
    rw [Dict.find_eq_none_iff]; exact not_not.symm
  rw [h1, hfind]
  by_cases hfm : ds.filterMap (fun d => Dict.find d k) = []
  · rw [if_pos hfm]
    rw [List.filterMap_eq_nil_iff] at hfm
    constructor
    · intro hc; exact absurd rfl hc
    · rintro ⟨d, hd, hkd⟩
      exact absurd hkd ((Dict.find_eq_none_iff d k).mp (hfm d hd))
  · rw [if_neg hfm]
    constructor
    · intro _
      simp only [List.filterMap_eq_nil_iff] at hfm
      push_neg at hfm
      obtain ⟨d, hd, hkd⟩ := hfm
      exact ⟨d, hd, by
        by_contra hnk
        exact hkd ((Dict.find_eq_none_iff d k).mpr hnk)⟩
    · intro _ hc; exact Option.noConfusion hc

/-- Witness for C1 at the spec's concrete scenario: the value part of the
theorem evaluated with input dicts {"x": 1}, {"x": 2}, {"y": 5} at key "x". -/
theorem sum_by_key_correct_witness :
    Dict.find (sum_by_key [[("x", 1)], [("x", 2)], [("y", 5)]]) "x" =
      (if [[("x", (1 : Int))], [("x", 2)], [("y", 5)]].filterMap
            (fun d => Dict.find d "x") = [] then none
       else some ([[("x", (1 : Int))], [("x", 2)], [("y", 5)]].filterMap
            (fun d => Dict.find d "x")).sum) :=
  (sum_by_key_correct [[("x", 1)], [("x", 2)], [("y", 5)]] (by decide) "x").2

/-!
## `count_words_fast`: character counting
-/

/-- `Dict.incr` at the incremented key itself. -/
theorem Dict.find_incr_self (r : Dict) (k : String) (v : Int) :
    (Dict.incr r k v).find k = some ((Dict.find r k).getD 0 + v) := by
  rw [Dict.find_incr, if_pos rfl]

/-- `Dict.incr` leaves every other key unchanged. -/
theorem Dict.find_incr_ne (r : Dict) (k k2 : String) (v : Int) (h : k2 ≠ k) :
    (Dict.incr r k v).find k2 = Dict.find r k2 := by
  rw [Dict.find_incr, if_neg h]

/-- Folding `Dict.incr · w 1` over a list of words — the body of
`collections.Counter` — adds each word's number of occurrences to its
previous value in the accumulator. -/
theorem foldl_incr_count (ws : List String) (c : Dict) (k : String) :
    (ws.foldl (fun d w => Dict.incr d w 1) c).find k =
      if ws.count k = 0 then Dict.find c k
      else some ((Dict.find c k).getD 0 + (ws.count k : Int)) := by
  induction ws generalizing c with
  | nil => simp
  | cons w ws ih =>
    simp only [List.foldl_cons]
    rw [ih]
    by_cases hw : k = w
    · subst hw
      rw [Dict.find_incr_self, List.count_cons_self]
      by_cases h0 : List.count k ws = 0
      · simp [h0]
      · rw [if_neg h0, if_neg (show ¬ (List.count k ws + 1 = 0) from by omega)]
        simp only [Option.getD_some, Option.some.injEq]
        push_cast
        ring
    · rw [Dict.find_incr_ne c w k 1 hw]
      have hcc : List.count k (w :: ws) = List.count k ws := by
        rw [List.count_cons]
        simp [Ne.symm hw]
      rw [hcc]

/-- Lookup in `counterOf ws`: the number of occurrences in `ws`, with
absent keys (count 0) unbound. -/
theorem counterOf_find (ws : List String) (k : String) :
    (counterOf ws).find k =
      if ws.count k = 0 then none else some ((ws.count k : Int)) := by
  unfold counterOf
  rw [foldl_incr_count]
  by_cases h : ws.count k = 0 <;> simp [h, Dict.find]

/-- `count_words_fast` is the counter of the one-character strings of its
input. -/
theorem count_words_fast_eq (s : String) :
    count_words_fast s = counterOf (s.toList.map String.singleton) := by
  unfold count_words_fast counterOf
  rw [List.foldl_map]

/-- Distinct characters give distinct one-character strings. -/
theorem string_singleton_injective : Function.Injective String.singleton := by
  intro a b h
  have h2 := congrArg String.data h
  simpa [String.data_singleton] using h2

/-- C8: `count_words_fast` counts single characters, not words — its key
set is the set of one-character strings of the characters occurring in the
input (whitespace included), each bound to that character's number of
occurrences — and consequently it disagrees with `count_words` on the
string "aa b". -/
theorem count_words_fast_correct (s : String) (k : String) (c : Char)
    (hc : c ∈ s.toList) :
    ((count_words_fast s).find k ≠ none
      ↔ ∃ c2 ∈ s.toList, k = String.singleton c2)
    ∧ (count_words_fast s).find (String.singleton c)
        = some ((s.toList.count c : Int))
    ∧ ∃ k2, (count_words_fast "aa b").find k2 ≠ (count_words "aa b").find k2 := by
  refine ⟨?_, ?_, ⟨"a", by decide⟩⟩
  · rw [count_words_fast_eq, counterOf_find]
    by_cases h : (s.toList.map String.singleton).count k = 0
    · rw [if_pos h]
      rw [List.count_eq_zero] at h
      simp only [List.mem_map] at h
      push_neg at h
      constructor
      · intro hfalse; exact absurd rfl hfalse
      · rintro ⟨c2, hc2, hk⟩
        intro _
        exact (h c2 hc2) hk.symm
    · rw [if_neg h]
      constructor
      · intro _
        have hmem : k ∈ s.toList.map String.singleton := by
          by_contra hk
          exact h (List.count_eq_zero.mpr hk)
        obtain ⟨c2, hc2, he⟩ := List.mem_map.mp hmem
        exact ⟨c2, hc2, he.symm⟩
      · intro _
        simp
  · rw [count_words_fast_eq, counterOf_find]
    have hcnt : (s.toList.map String.singleton).count (String.singleton c)
        = s.toList.count c :=
      List.count_map_of_injective _ _ string_singleton_injective _
    have hpos : 0 < s.toList.count c := List.count_pos_iff.mpr hc
    rw [hcnt, if_neg (by omega)]

/-- Witness for C8: in "aa b" the character 'a' occurs twice, and
`count_words_fast` binds the one-character string "a" to that count. -/
theorem count_words_fast_correct_witness :
    (count_words_fast "aa b").find (String.singleton 'a')
      = some ((("aa b" : String).toList.count 'a' : Int)) :=
  (count_words_fast_correct "aa b" "a" 'a' (by decide)).2.1

/-!
## `split_partitions`

`split_partitions(sizes, num_partitions)` greedily packs the indices of
`sizes` (processed largest-size first, from a stable sort) into
`num_partitions - 1` partitions of capacity `partition_size`, and puts
whatever is left into a final partition.

Embedding notes: `perm = sorted(range(len(sizes)), key=...)` is a stable
ascending sort, embedded as a stable insertion sort (`sortByKey`); stable
sorting by a key is functionally unique, so any stable algorithm agrees
with Python's. The Python code pops from the end of `head`, so each pass
(`onePass`) receives the pending indices in pop order — the reverse of the
Python list — and returns the next pass's pending indices already in pop
order, because `head = list(reversed(tail))` re-reverses what was appended
to `tail`. Python's floor division `//` is `Int.fdiv`.
-/

/-- Insert index `x` into `l` after every index whose size is `≤` the size
of `x` (out-of-range sizes read 0, which never happens for indices of
`range(len(sizes))`). -/
def insertByKey (sizes : List Int) (x : Nat) : List Nat → List Nat
  | [] => [x]
  | y :: ys =>
    if sizes.getD y 0 ≤ sizes.getD x 0 then y :: insertByKey sizes x ys
    else x :: y :: ys

/-- `sorted(l, key=lambda k: sizes[k])`: a stable ascending sort of `l` by
size. -/
def sortByKey (sizes : List Int) (l : List Nat) : List Nat :=
  l.foldl (fun acc x => insertByKey sizes x acc) []

/-- One iteration of the outer `for partition in range(len(result))` loop:
pop each pending index (the list is in pop order), append it to the current
partition if its size fits in the remaining capacity `psize - cur`, else
push it to `tail`. Returns the partition contents and the next pending list
(already in pop order, since Python re-reverses `tail`). -/
def onePass (sizes : List Int) (psize : Int) : List Nat → Int → List Nat × List Nat
  | [], _ => ([], [])
  | e :: rest, cur =>
    if sizes.getD e 0 ≤ psize - cur then
      let pr := onePass sizes psize rest (cur + sizes.getD e 0)
      (e :: pr.1, pr.2)
    else
      let pr := onePass sizes psize rest cur
      (pr.1, e :: pr.2)

/-- The `num_partitions - 1` greedy passes followed by
`result.append(head)`; the final `head` is the pending list restored to
Python order (the reverse of pop order). -/
def splitLoop (sizes : List Int) (psize : Int) : Nat → List Nat → List (List Nat)
  | 0, stack => [stack.reverse]
  | k + 1, stack =>
    let pr := onePass sizes psize stack 0
    pr.1 :: splitLoop sizes psize k pr.2

/-- `split_partitions(sizes, num_partitions)` from the example. -/
def split_partitions (sizes : List Int) (num_partitions : Nat) : List (List Nat) :=
  let total_size := sizes.sum
  let partition_size := (total_size + (num_partitions : Int) - 1).fdiv (num_partitions : Int)
  let perm := sortByKey sizes (List.range sizes.length)
  splitLoop sizes partition_size (num_partitions - 1) perm.reverse

/-- Inserting is a permutation-preserving cons. -/
theorem insertByKey_perm (sizes : List Int) (x : Nat) (l : List Nat) :
    (insertByKey sizes x l).Perm (x :: l) := by
  induction l with
  | nil => exact List.Perm.refl _
  | cons y ys ih =>
    simp only [insertByKey]
    by_cases h : sizes.getD y 0 ≤ sizes.getD x 0
    · rw [if_pos h]
      exact (ih.cons y).trans (List.Perm.swap x y ys)
    · rw [if_neg h]

/-- The insertion-sort fold permutes `acc ++ l`. -/
theorem sortByKey_foldl_perm (sizes : List Int) (l acc : List Nat) :
    (l.foldl (fun a x => insertByKey sizes x a) acc).Perm (acc ++ l) := by
  induction l generalizing acc with
  | nil => simp
  | cons x xs ih =>
    simp only [List.foldl_cons]
    refine (ih (insertByKey sizes x acc)).trans ?_
    refine (List.Perm.append_right xs (insertByKey_perm sizes x acc)).trans ?_
    simpa using List.perm_middle.symm

/-- Sorting permutes. -/
theorem sortByKey_perm (sizes : List Int) (l : List Nat) :
    (sortByKey sizes l).Perm l := by
  simpa using sortByKey_foldl_perm sizes l []

/-- One greedy pass only redistributes the pending indices: partition
contents plus new pending list permute the old pending list. -/
theorem onePass_perm (sizes : List Int) (psize : Int) (stack : List Nat)
    (cur : Int) :
    ((onePass sizes psize stack cur).1 ++ (onePass sizes psize stack cur).2).Perm
      stack := by
  induction stack generalizing cur with
  | nil => simp [onePass]
  | cons e rest ih =>
    simp only [onePass]
    by_cases h : sizes.getD e 0 ≤ psize - cur
    · rw [if_pos h]
      simpa using (ih (cur + sizes.getD e 0)).cons e
    · rw [if_neg h]
      exact List.perm_middle.trans ((ih cur).cons e)

/-- `splitLoop` produces `k + 1` partitions. -/
theorem splitLoop_length (sizes : List Int) (psize : Int) (k : Nat)
    (stack : List Nat) :
    (splitLoop sizes psize k stack).length = k + 1 := by
  induction k generalizing stack with
  | zero => rfl
  | succ k ih => simp [splitLoop, ih]

/-- The concatenation of all partitions permutes the pending indices. -/
theorem splitLoop_perm (sizes : List Int) (psize : Int) (k : Nat)
    (stack : List Nat) :
    (splitLoop sizes psize k stack).flatten.Perm stack := by
  induction k generalizing stack with
  | zero => simp [splitLoop]
  | succ k ih =>
    simp only [splitLoop, List.flatten_cons]
    exact ((ih _).append_left _).trans (onePass_perm sizes psize stack 0)

/-- C10: for every list of non-negative sizes and every
`num_partitions ≥ 1`, `split_partitions` returns exactly `num_partitions`
lists which together contain each index of `sizes` exactly once. -/
theorem split_partitions_partition (sizes : List Int) (num_partitions : Nat)
    (hn : 1 ≤ num_partitions) (_hsz : ∀ x ∈ sizes, 0 ≤ x) :
    (split_partitions sizes num_partitions).length = num_partitions
    ∧ ∀ i < sizes.length,
        (split_partitions sizes num_partitions).flatten.count i = 1 := by
  have hperm : (split_partitions sizes num_partitions).flatten.Perm
      (List.range sizes.length) := by
    unfold split_partitions
    refine (splitLoop_perm _ _ _ _).trans ?_
    exact (List.reverse_perm _).trans (sortByKey_perm _ _)
  constructor
  · unfold split_partitions
    rw [splitLoop_length]
    omega
  · intro i hi
    rw [hperm.count_eq i]
    exact List.count_eq_one_of_mem (List.nodup_range _) (List.mem_range.mpr hi)

/-- Witness for C10 with sizes [1, 2, 3] and 2 partitions: index 0 lands in
exactly one partition. -/
theorem split_partitions_partition_witness :
    (split_partitions [1, 2, 3] 2).length = 2
    ∧ (split_partitions [1, 2, 3] 2).flatten.count 0 = 1 :=
  ⟨(split_partitions_partition [1, 2, 3] 2 (by decide) (by decide)).1,
   (split_partitions_partition [1, 2, 3] 2 (by decide) (by decide)).2 0 (by decide)⟩
